import Mathlib

/-!
Verification of the `cirello.io/otp` command-line OTP vault (`main.go`)
against its natural-language specification.

Go byte slices and strings are modelled as `List ℕ` with every element
below 256; machine integers are modelled as `ℕ`/`ℤ` with explicit
truncation where the source can overflow.  The program delegates its
cipher to Go's `crypto/rsa` `EncryptOAEP`/`DecryptOAEP`; those two
functions are embedded here faithfully (RSA-OAEP over an explicit key,
parameterised by the padding hash exactly as the Go API is — `main.go`
passes `sha256.New()`), with the randomness (`io.ReadFull(random, seed)`)
made an explicit `seed` argument.  `strings.ToUpper` is modelled on the
ASCII fragment, which covers all byte strings the claims quantify over.
-/

/-- A Go byte slice / string: a list of byte values. -/
abbrev GoStr := List ℕ

/-- Fuel-driven modular exponentiation by squaring.  The fuel only serves
to make the recursion structural; `powMod` always supplies enough. -/
def powModAux : ℕ → ℕ → ℕ → ℕ → ℕ
  | 0, n, _, _ => 1 % n
  | fuel + 1, n, b, e =>
    if e = 0 then 1 % n
    else
      let r := powModAux fuel n (b * b % n) (e / 2)
      if e % 2 = 1 then r * b % n else r

/-- `powMod n b e = b ^ e % n`, computable for cryptographic exponents. -/
def powMod (n b e : ℕ) : ℕ := powModAux (e + 1) n b e

/-- Big-endian byte-string-to-integer conversion (Go `new(big.Int).SetBytes`). -/
def os2ip (bs : GoStr) : ℕ := bs.foldl (fun acc b => 256 * acc + b) 0

/-- Big-endian integer-to-byte-string conversion producing exactly `k`
bytes (Go `(*big.Int).FillBytes` on a `k`-byte buffer). -/
def i2osp : ℕ → ℕ → GoStr
  | 0, _ => []
  | k + 1, m => i2osp k (m / 256) ++ [m % 256]

/-- Pointwise XOR of two byte strings (Go `mgf1XOR`'s `out[i] ^= mask[i]`). -/
def xorBytes (a b : GoStr) : GoStr := List.zipWith (fun x y => x ^^^ y) a b

/-- 4-byte big-endian counter block used by MGF1 (Go `incCounter`). -/
def be4 (i : ℕ) : GoStr := [i / 16777216 % 256, i / 65536 % 256, i / 256 % 256, i % 256]

/-- The padding hash handed to `EncryptOAEP`/`DecryptOAEP` (Go passes a
`hash.Hash`; `main.go` passes `sha256.New()`).  `hLen` is `hash.Size()`. -/
structure HashFn where
  hLen : ℕ
  hash : GoStr → GoStr

/-- Well-formedness of a padding hash: a positive digest size, and every
digest has exactly that many bytes. -/
def HashWF (H : HashFn) : Prop :=
  0 < H.hLen ∧ ∀ x, (H.hash x).length = H.hLen ∧ ∀ b ∈ H.hash x, b < 256

/-- MGF1 mask generation (Go `mgf1XOR`): concatenate `hash(seed ++ counter)`
blocks until `len` bytes are produced, then truncate to `len`. -/
def mgf1 (H : HashFn) (seed : GoStr) (len : ℕ) : GoStr :=
  (((List.range ((len + H.hLen - 1) / H.hLen)).map
    (fun i => H.hash (seed ++ be4 i))).flatten).take len

/-- The two sentinel errors of Go `crypto/rsa`: `ErrMessageTooLong` and
`ErrDecryption`.  `DecryptOAEP` returns the single value `ErrDecryption`
on every failure path. -/
inductive RSAError where
  | messageTooLong
  | decryptionError
deriving DecidableEq

/-- An RSA private key (`rsa.PrivateKey`): modulus `n = p * q`, public
exponent `e`, private exponent `d`, and `k = pub.Size()`, the byte length
of the modulus. -/
structure RSAKey where
  n : ℕ
  e : ℕ
  d : ℕ
  p : ℕ
  q : ℕ
  k : ℕ

/-- Validity of an RSA key as guaranteed by Go key parsing/validation:
distinct primes, `n = p * q`, `e*d ≡ 1` modulo `p-1` and `q-1`
(`(*rsa.PrivateKey).Validate`), `e ≥ 2` (`checkPub`), and `k` is the byte
size of `n` (`pub.Size() = (n.BitLen()+7)/8`). -/
def KeyWF (K : RSAKey) : Prop :=
  K.p.Prime ∧ K.q.Prime ∧ K.p ≠ K.q ∧ K.n = K.p * K.q ∧
    K.e * K.d ≡ 1 [MOD K.p - 1] ∧ K.e * K.d ≡ 1 [MOD K.q - 1] ∧
    2 ≤ K.e ∧ 1 ≤ K.d ∧ 1 ≤ K.k ∧ 256 ^ (K.k - 1) ≤ K.n ∧ K.n < 256 ^ K.k

/-- OAEP padding of `msg` under `label` with random `seed` (the body of Go
`EncryptOAEP`): `em = 0x00 ‖ maskedSeed ‖ maskedDB` where
`db = lHash ‖ zeros ‖ 0x01 ‖ msg`. -/
def oaepPad (H : HashFn) (k : ℕ) (msg label seed : GoStr) : GoStr :=
  let db := H.hash label ++ List.replicate (k - msg.length - 2 * H.hLen - 2) 0 ++ 1 :: msg
  let maskedDB := xorBytes db (mgf1 H seed (k - H.hLen - 1))
  let maskedSeed := xorBytes seed (mgf1 H maskedDB H.hLen)
  0 :: (maskedSeed ++ maskedDB)

/-- Go `rsa.EncryptOAEP(hash, random, &priv.PublicKey, msg, label)` with the
`hLen` random bytes drawn from `random` passed explicitly as `seed`.
The length guard `len(msg) > k-2*hash.Size()-2` is over Go ints, hence
the comparison in `ℤ`. -/
def encryptOAEP (H : HashFn) (K : RSAKey) (msg label seed : GoStr) : Except RSAError GoStr :=
  if (msg.length : ℤ) > (K.k : ℤ) - 2 * (H.hLen : ℤ) - 2 then .error .messageTooLong
  else .ok (i2osp K.k (powMod K.n (os2ip (oaepPad H K.k msg label seed)) K.e))

/-- The constant-time scan of `rest = db[hLen:]` in Go `DecryptOAEP`,
functionally: all bytes before the first `0x01` must be `0x00`; returns
the index of that `0x01`. -/
def oaepScan : GoStr → Option ℕ
  | [] => none
  | 0 :: rest => (oaepScan rest).map (· + 1)
  | 1 :: _ => some 0
  | _ :: _ => none

/-- OAEP unpadding of the `k`-byte block `em` under `label` (the tail of Go
`DecryptOAEP`): recover `seed` and `db`, check the leading zero byte, the
label hash, and the `0x00 … 0x00 0x01` separator; every failure is the
single `ErrDecryption`. -/
def oaepUnpad (H : HashFn) (k : ℕ) (label em : GoStr) : Except RSAError GoStr :=
  let maskedSeed := (em.drop 1).take H.hLen
  let maskedDB := em.drop (1 + H.hLen)
  let seed := xorBytes maskedSeed (mgf1 H maskedDB H.hLen)
  let db := xorBytes maskedDB (mgf1 H seed (k - H.hLen - 1))
  let rest := db.drop H.hLen
  match oaepScan rest with
  | none => .error .decryptionError
  | some idx =>
    if em.headD 1 = 0 ∧ db.take H.hLen = H.hash label then .ok (rest.drop (idx + 1))
    else .error .decryptionError

/-- Go `rsa.DecryptOAEP(hash, random, priv, ciphertext, label)`: the size
guards (`len(ciphertext) > k`, `k < hash.Size()*2+2`), the rejection of
values `≥ n` (`bigmod` `SetBytes`), the RSA private operation, and OAEP
unpadding.  All failures return the one sentinel `ErrDecryption`. -/
def decryptOAEP (H : HashFn) (K : RSAKey) (ciphertext label : GoStr) : Except RSAError GoStr :=
  if K.k < 2 * H.hLen + 2 ∨ K.k < ciphertext.length then .error .decryptionError
  else
    let c := os2ip ciphertext
    if K.n ≤ c then .error .decryptionError
    else oaepUnpad H K.k label (i2osp K.k (powMod K.n c K.d))

/-- `cryptlabel` from `main.go`: `[]byte(fmt.Sprint(account, issuer))`.
`fmt.Sprint` concatenates two string operands without inserting a space
(spaces are only added between operands when neither is a string), so the
label is the bytes of `account` followed by the bytes of `issuer`. -/
def cryptlabel (account issuer : GoStr) : GoStr := account ++ issuer

/-! ### Vault layer: records, `add`, `load`, `get` (from `main.go`) -/

/-- A row of the `otps` table: `(account, issuer, password)` where
`password` is the OAEP ciphertext blob. -/
structure OtpRow where
  account : GoStr
  issuer : GoStr
  password : GoStr
deriving DecidableEq

/-- The errors surfaced by the vault commands: the three validation
errors of `add` ("secret key is missing", "issuer is missing",
"account name is missing"), propagated encryption/decryption errors, and
code-generation errors (`otp.GenerateCode`). -/
inductive VaultError where
  | secretMissing
  | issuerMissing
  | accountMissing
  | encryptFailed (e : RSAError)
  | decryptFailed (e : RSAError)
  | codegenFailed (msg : GoStr)
deriving DecidableEq

/-- Whether an error is one of `add`'s three missing-field errors. -/
def VaultError.isValidation : VaultError → Bool
  | .secretMissing => true
  | .issuerMissing => true
  | .accountMissing => true
  | _ => false

/-- SQLite `REPLACE INTO` against the unique index on `(account, issuer)`
(`initdb` creates `CREATE UNIQUE INDEX otps_account_issuer`): delete any
conflicting row, then insert the new one. -/
def replaceInto (db : List OtpRow) (r : OtpRow) : List OtpRow :=
  (db.filter fun r0 => decide (¬(r0.account = r.account ∧ r0.issuer = r.issuer))) ++ [r]

/-- The `add` command (`main.go`): validate the three arguments in order
(secret, issuer, account), encrypt the secret under
`cryptlabel(account, issuer)`, and `REPLACE INTO` the table.  The
encryption step (`priv.encrypted` with its key and randomness) is the
`enc` parameter.  Returns the resulting table and the error, if any. -/
def add (enc : GoStr → GoStr → Except RSAError GoStr) (db : List OtpRow)
    (secretkey issuer account : GoStr) : List OtpRow × Option VaultError :=
  if secretkey = [] then (db, some .secretMissing)
  else if issuer = [] then (db, some .issuerMissing)
  else if account = [] then (db, some .accountMissing)
  else
    match enc secretkey (cryptlabel account issuer) with
    | .error e => (db, some (.encryptFailed e))
    | .ok enckey => (replaceInto db ⟨account, issuer, enckey⟩, none)

/-- A sequence of `add` invocations with argument triples
`(secret, issuer, account)`; a failing `add` leaves the table unchanged. -/
def applyAdds (enc : GoStr → GoStr → Except RSAError GoStr) (db : List OtpRow) :
    List (GoStr × GoStr × GoStr) → List OtpRow
  | [] => db
  | (s, i, a) :: ops => applyAdds enc (add enc db s i a).1 ops

/-- Two rows collide on the unique key `(account, issuer)`. -/
def sameKey (r0 r : OtpRow) : Prop := r0.account = r.account ∧ r0.issuer = r.issuer

/-- No two rows of the table share an `(account, issuer)` pair. -/
def UniqueKeys (db : List OtpRow) : Prop := db.Pairwise fun a b => ¬ sameKey a b

/-- `strings.ToUpper` on one byte, ASCII fragment. -/
def goUpperByte (b : ℕ) : ℕ := if 97 ≤ b ∧ b ≤ 122 then b - 32 else b

/-- The secret normalization in `load` (`main.go`):
`strings.ToUpper(strings.ReplaceAll(string(decrypted), " ", ""))` — every
space byte (0x20) removed, then letters upper-cased. -/
def normalizeKey (s : GoStr) : GoStr := (s.filter fun b => decide (b ≠ 32)).map goUpperByte

/-- ASCII whitespace per Go `unicode.IsSpace`. -/
def goSpaceByte (b : ℕ) : Bool :=
  decide (b = 9 ∨ b = 10 ∨ b = 11 ∨ b = 12 ∨ b = 13 ∨ b = 32)

/-- Secret normalization as the spec's words describe it ("strips
whitespace, upper-cases"): every whitespace byte removed, then letters
upper-cased.  Stated for comparison with `normalizeKey`, which the source
defines via `strings.ReplaceAll(·, " ", "")`. -/
def specNormalize (s : GoStr) : GoStr := (s.filter fun b => !goSpaceByte b).map goUpperByte

/-- The displayed validity window in `load` (`main.go`):
`30 - time.Now().Unix()%30`, with Go's truncated `%` on `int64`. -/
def secondsRemaining (now : ℤ) : ℤ := 30 - Int.tmod now 30

/-- One row of the `get`/HTTP listing produced by `load`: account, issuer,
seconds remaining, and the generated code. -/
structure ListingRow where
  account : GoStr
  issuer : GoStr
  secsRemaining : ℤ
  token : GoStr
deriving DecidableEq

/-- The row loop of `load` (`main.go`): for each record decrypt the blob
under the recomputed label, normalize, generate the code (`gen` stands for
`otp.GenerateCode(·, time.Now())`), and emit a listing row.  On a
decryption or code-generation failure the loop `return err`s: rows already
written reach the writer (the tabwriter is flushed by `defer`), the
failing and all later records produce nothing. -/
def loadRows (H : HashFn) (K : RSAKey) (gen : GoStr → Except GoStr GoStr) (now : ℤ) :
    List OtpRow → List ListingRow × Option VaultError
  | [] => ([], none)
  | r :: rs =>
    match decryptOAEP H K r.password (cryptlabel r.account r.issuer) with
    | .error e => ([], some (.decryptFailed e))
    | .ok dec =>
      match gen (normalizeKey dec) with
      | .error m => ([], some (.codegenFailed m))
      | .ok token =>
        let rest := loadRows H K gen now rs
        (⟨r.account, r.issuer, secondsRemaining now, token⟩ :: rest.1, rest.2)

/-- Go `strings.Fields`: the maximal runs of non-whitespace bytes. -/
def goFields (s : GoStr) : List GoStr :=
  (s.splitOnP goSpaceByte).filter fun f => decide (f ≠ [])

/-- `bufio.Scanner` with `bufio.ScanLines`: split at newlines, drop the
final empty token when the input ends with a newline, and strip one
trailing carriage return from each line. -/
def splitLinesScanner (buf : GoStr) : List GoStr :=
  let parts := buf.splitOn 10
  let parts2 := if parts.getLast? = some [] then parts.dropLast else parts
  parts2.map fun l => if l.getLast? = some 13 then l.dropLast else l

/-- All positions at which `sub` occurs in `s` (as a contiguous substring). -/
def occPositions (s sub : GoStr) : List ℕ :=
  (List.range (s.length + 1)).filter fun i => sub.isPrefixOf (s.drop i)

/-- Go `strings.Index`: position of the first occurrence, if any. -/
def strIndex? (s sub : GoStr) : Option ℕ := (occPositions s sub).head?

/-- Go `strings.LastIndex`: position of the last occurrence, if any. -/
def strLastIndex? (s sub : GoStr) : Option ℕ := (occPositions s sub).getLast?

/-- Go `strings.Contains`. -/
def containsStr (s sub : GoStr) : Bool := (strIndex? s sub).isSome

/-- The filtering stage of the `get` command (`main.go`) applied to the
buffered listing output `buf`: `multiMatch` compares `strings.Index` and
`strings.LastIndex` of the filter over the whole buffer; each scanned line
containing the filter is printed — whole when `multiMatch`, otherwise only
its last whitespace-separated field.  (Go indexes `fields[len(fields)-1]`,
which panics on a field-free line; that is modelled by `getLastD` with an
empty default.) -/
def getFiltered (buf flt : GoStr) : List GoStr :=
  let multiMatch := strIndex? buf flt ≠ strLastIndex? buf flt
  (splitLinesScanner buf).foldr
    (fun line out =>
      if containsStr line flt then
        (if multiMatch then line else (goFields line).getLastD []) :: out
      else out) []

/-! ### Toy instances used to witness the cipher theorems -/

/-- A small well-formed padding hash (digest size 1) for witnesses. -/
def toyHash : HashFn := ⟨1, fun x => [(x.foldl (· + ·) 7) % 256]⟩

/-- A small valid RSA key: `n = 65537 * 65539`, `e = 17`,
`d = 17⁻¹ mod lcm(65536, 65538)`. -/
def toyKey : RSAKey := ⟨4295229443, 17, 631632113, 65537, 65539, 5⟩

/-! ### Arithmetic and byte-string lemmas -/

theorem powModAux_eq (n : ℕ) : ∀ fuel e b, e < 2 ^ fuel → powModAux fuel n b e = b ^ e % n := by
  intro fuel
  induction fuel with
  | zero =>
    intro e b he
    interval_cases e
    simp [powModAux]
  | succ fuel ih =>
    intro e b he
    rcases Nat.eq_zero_or_pos e with rfl | hpos
    · simp [powModAux]
    · have h2 : 2 ^ (fuel + 1) = 2 * 2 ^ fuel := by rw [pow_succ]; ring
      have hfit : e / 2 < 2 ^ fuel := by omega
      have hrec := ih (e / 2) (b * b % n) hfit
      have hb2 : (b * b % n) ^ (e / 2) % n = b ^ (2 * (e / 2)) % n := by
        rw [← Nat.pow_mod, show b * b = b ^ 2 from (pow_two b).symm, ← pow_mul]
      simp only [powModAux, if_neg (Nat.pos_iff_ne_zero.mp hpos)]
      rcases Nat.even_or_odd e with he2 | he2
      · have hmod0 : e % 2 = 0 := Nat.even_iff.mp he2
        have hmod : e % 2 ≠ 1 := by omega
        have he' : 2 * (e / 2) = e := by omega
        simp only [if_neg hmod, hrec, hb2, he']
      · have hmod : e % 2 = 1 := Nat.odd_iff.mp he2
        have he' : 2 * (e / 2) + 1 = e := by omega
        simp only [if_pos hmod, hrec, hb2]
        rw [Nat.mod_mul_mod, ← pow_succ, he']

theorem powMod_eq (n b e : ℕ) : powMod n b e = b ^ e % n := by
  have he : e < 2 ^ (e + 1) :=
    lt_trans (Nat.lt_two_pow e) (Nat.pow_lt_pow_right (by norm_num) (Nat.lt_succ_self e))
  exact powModAux_eq n (e + 1) e b he

theorem powMod_lt (n b e : ℕ) (hn : 0 < n) : powMod n b e < n := by
  rw [powMod_eq]
  exact Nat.mod_lt _ hn

theorem os2ip_append (l : GoStr) (b : ℕ) : os2ip (l ++ [b]) = 256 * os2ip l + b := by
  simp [os2ip, List.foldl_append]

theorem os2ip_lt (bs : GoStr) (hb : ∀ b ∈ bs, b < 256) : os2ip bs < 256 ^ bs.length := by
  induction bs using List.reverseRecOn with
  | nil => simp [os2ip]
  | append_singleton l b ih =>
    have hb' : ∀ x ∈ l, x < 256 := fun x hx => hb x (List.mem_append_left _ hx)
    have hlt := ih hb'
    have hblt : b < 256 := hb b (List.mem_append_right _ (List.mem_singleton_self b))
    rw [os2ip_append]
    simp only [List.length_append, List.length_singleton, pow_succ]
    calc 256 * os2ip l + b < 256 * os2ip l + 256 := by omega
    _ = 256 * (os2ip l + 1) := by ring
    _ ≤ 256 * 256 ^ l.length := by
        have : os2ip l + 1 ≤ 256 ^ l.length := hlt
        exact Nat.mul_le_mul_left 256 this
    _ = 256 ^ l.length * 256 := by ring

theorem os2ip_cons_zero (t : GoStr) : os2ip (0 :: t) = os2ip t := by
  simp [os2ip]

theorem i2osp_length (k m : ℕ) : (i2osp k m).length = k := by
  induction k generalizing m with
  | zero => simp [i2osp]
  | succ k ih => simp [i2osp, ih]

theorem i2osp_mem_lt (k m : ℕ) : ∀ b ∈ i2osp k m, b < 256 := by
  induction k generalizing m with
  | zero => simp [i2osp]
  | succ k ih =>
    intro b hb
    simp only [i2osp, List.mem_append, List.mem_singleton] at hb
    rcases hb with hb | rfl
    · exact ih (m / 256) b hb
    · exact Nat.mod_lt _ (by norm_num)

theorem i2osp_os2ip (bs : GoStr) (hb : ∀ b ∈ bs, b < 256) :
    i2osp bs.length (os2ip bs) = bs := by
  induction bs using List.reverseRecOn with
  | nil => simp [i2osp, os2ip]
  | append_singleton l b ih =>
    have hb' : ∀ x ∈ l, x < 256 := fun x hx => hb x (List.mem_append_left _ hx)
    have hblt : b < 256 := hb b (List.mem_append_right _ (List.mem_singleton_self b))
    rw [os2ip_append]
    simp only [List.length_append, List.length_singleton, i2osp]
    have hdiv : (256 * os2ip l + b) / 256 = os2ip l := by omega
    have hmod : (256 * os2ip l + b) % 256 = b := by omega
    rw [hdiv, hmod, ih hb']

theorem os2ip_i2osp (k : ℕ) : ∀ m, m < 256 ^ k → os2ip (i2osp k m) = m := by
  induction k with
  | zero =>
    intro m hm
    interval_cases m
    simp [i2osp, os2ip]
  | succ k ih =>
    intro m hm
    have hdivlt : m / 256 < 256 ^ k := by
      rw [Nat.div_lt_iff_lt_mul (by norm_num)]
      calc m < 256 ^ (k + 1) := hm
      _ = 256 ^ k * 256 := by rw [pow_succ]
    simp only [i2osp, os2ip_append, ih (m / 256) hdivlt]
    omega

theorem xorBytes_length (a b : GoStr) : (xorBytes a b).length = min a.length b.length := by
  simp [xorBytes]

theorem xorBytes_cancel (a : GoStr) : ∀ b, a.length = b.length → xorBytes (xorBytes a b) b = a := by
  induction a with
  | nil => intro b _; simp [xorBytes]
  | cons x xs ih =>
    intro b hlen
    cases b with
    | nil => simp at hlen
    | cons y ys =>
      simp only [xorBytes, List.zipWith_cons_cons, List.cons.injEq]
      constructor
      · exact Nat.xor_cancel_right y x
      · exact ih ys (by simpa using hlen)

theorem xorBytes_mem_lt (a : GoStr) :
    ∀ b, (∀ x ∈ a, x < 256) → (∀ x ∈ b, x < 256) → ∀ x ∈ xorBytes a b, x < 256 := by
  induction a with
  | nil => intro b _ _ x hx; simp [xorBytes] at hx
  | cons u us ih =>
    intro b ha hb x hx
    cases b with
    | nil => simp [xorBytes] at hx
    | cons v vs =>
      simp only [xorBytes, List.zipWith_cons_cons, List.mem_cons] at hx
      rcases hx with rfl | hx
      · have hu : u < 2 ^ 8 := by simpa using ha u (by simp)
        have hv : v < 2 ^ 8 := by simpa using hb v (by simp)
        simpa using Nat.xor_lt_two_pow hu hv
      · exact ih vs (fun y hy => ha y (List.mem_cons_of_mem _ hy))
          (fun y hy => hb y (List.mem_cons_of_mem _ hy)) x hx

theorem le_mul_ceil (a b : ℕ) (hb : 0 < b) : a ≤ b * ((a + b - 1) / b) := by
  rcases Nat.eq_zero_or_pos a with rfl | ha
  · simp
  · have h1 : (a + b - 1) = (a - 1) + b := by omega
    rw [h1, Nat.add_div_right _ hb, Nat.mul_add, Nat.mul_one]
    have := Nat.div_add_mod (a - 1) b
    have h2 := Nat.mod_lt (a - 1) hb
    omega

theorem mgf1_length (H : HashFn) (hH : HashWF H) (s : GoStr) (len : ℕ) :
    (mgf1 H s len).length = len := by
  obtain ⟨hpos, hdig⟩ := hH
  simp only [mgf1, List.length_take, List.length_flatten]
  have hmap : ∀ L : List ℕ,
      List.map List.length (List.map (fun i => H.hash (s ++ be4 i)) L) =
        List.replicate L.length H.hLen := by
    intro L
    induction L with
    | nil => simp
    | cons x xs ih => simp [List.replicate_succ, ih, (hdig (s ++ be4 x)).1]
  rw [hmap, List.sum_replicate, smul_eq_mul, List.length_range]
  have h := le_mul_ceil len H.hLen hpos
  rw [Nat.mul_comm H.hLen] at h
  omega

theorem mgf1_mem_lt (H : HashFn) (hH : HashWF H) (s : GoStr) (len : ℕ) :
    ∀ b ∈ mgf1 H s len, b < 256 := by
  intro b hb
  have hb' := List.mem_of_mem_take hb
  rw [List.mem_flatten] at hb'
  obtain ⟨l, hl, hbl⟩ := hb'
  rw [List.mem_map] at hl
  obtain ⟨i, _, rfl⟩ := hl
  exact (hH.2 (s ++ be4 i)).2 b hbl

theorem oaepScan_replicate (msg : GoStr) : ∀ z, oaepScan (List.replicate z 0 ++ 1 :: msg) = some z := by
  intro z
  induction z with
  | zero => simp [oaepScan]
  | succ z ih => simp [List.replicate_succ, oaepScan, ih]

/-! ### RSA permutation correctness -/

theorem pow_modEq_self_of_prime (p kk m : ℕ) (hp : p.Prime) (hk : 1 ≤ kk)
    (hcong : kk ≡ 1 [MOD p - 1]) : m ^ kk ≡ m [MOD p] := by
  haveI : Fact p.Prime := ⟨hp⟩
  have hdvd : (p - 1) ∣ kk - 1 := (Nat.modEq_iff_dvd' hk).mp hcong.symm
  obtain ⟨t, ht⟩ := hdvd
  have hkk : kk = 1 + (p - 1) * t := by omega
  rw [← ZMod.natCast_eq_natCast_iff]
  push_cast
  by_cases hz : (m : ZMod p) = 0
  · rw [hz, zero_pow (by omega : kk ≠ 0)]
  · rw [hkk, pow_add, pow_mul, pow_one, ZMod.pow_card_sub_one_eq_one hz, one_pow, mul_one]

theorem rsa_pow_modEq (K : RSAKey) (hK : KeyWF K) (m : ℕ) :
    m ^ (K.e * K.d) ≡ m [MOD K.n] := by
  obtain ⟨hp, hq, hpq, hn, hep, heq, he2, hd1, -⟩ := hK
  have hed : 1 ≤ K.e * K.d := le_trans (by norm_num) (Nat.mul_le_mul he2 hd1)
  have h1 := pow_modEq_self_of_prime K.p _ m hp hed hep
  have h2 := pow_modEq_self_of_prime K.q _ m hq hed heq
  have hco : K.p.Coprime K.q := (Nat.coprime_primes hp hq).mpr hpq
  rw [hn]
  exact (Nat.modEq_and_modEq_iff_modEq_mul hco).mp ⟨h1, h2⟩

theorem rsa_roundtrip_nat (K : RSAKey) (hK : KeyWF K) (m : ℕ) (hm : m < K.n) :
    powMod K.n (powMod K.n m K.e) K.d = m := by
  have hn0 : 0 < K.n := by
    have h1 : (0:ℕ) < 256 ^ (K.k - 1) := pow_pos (by norm_num) _
    have h2 := hK.2.2.2.2.2.2.2.2.2.1
    omega
  rw [powMod_eq, powMod_eq, ← Nat.pow_mod, ← pow_mul]
  have hcong := rsa_pow_modEq K hK m
  unfold Nat.ModEq at hcong
  rw [hcong, Nat.mod_eq_of_lt hm]

theorem oaepUnpad_oaepPad (H : HashFn) (hH : HashWF H) (k : ℕ) (msg label label' seed : GoStr)
    (hfit : msg.length + 2 * H.hLen + 2 ≤ k)
    (hseedlen : seed.length = H.hLen) :
    oaepUnpad H k label' (oaepPad H k msg label seed) =
      if H.hash label = H.hash label' then .ok msg else .error .decryptionError := by
  obtain ⟨hpos, hdig⟩ := hH
  set lh := H.hash label with hlh
  set z := k - msg.length - 2 * H.hLen - 2 with hz
  set db := lh ++ List.replicate z 0 ++ 1 :: msg with hdbdef
  set dbMask := mgf1 H seed (k - H.hLen - 1) with hdbMask
  set mdb := xorBytes db dbMask with hmdbdef
  set sMask := mgf1 H mdb H.hLen with hsMask
  set msd := xorBytes seed sMask with hmsddef
  have hpad : oaepPad H k msg label seed = 0 :: (msd ++ mdb) := rfl
  have hlhlen : lh.length = H.hLen := (hdig label).1
  have hdblen : db.length = k - H.hLen - 1 := by
    simp only [hdbdef, List.length_append, List.length_replicate, List.length_cons, hlhlen]
    omega
  have hdbMasklen : dbMask.length = k - H.hLen - 1 := mgf1_length H ⟨hpos, hdig⟩ _ _
  have hmdblen : mdb.length = k - H.hLen - 1 := by
    rw [hmdbdef, xorBytes_length, hdblen, hdbMasklen, min_self]
  have hsMasklen : sMask.length = H.hLen := mgf1_length H ⟨hpos, hdig⟩ _ _
  have hmsdlen : msd.length = H.hLen := by
    rw [hmsddef, xorBytes_length, hseedlen, hsMasklen, min_self]
  rw [hpad]
  simp only [oaepUnpad]
  -- component equations
  have e1 : ((0 :: (msd ++ mdb)).drop 1).take H.hLen = msd := by
    rw [List.drop_succ_cons, List.drop_zero, ← hmsdlen, List.take_left]
  have e2 : (0 :: (msd ++ mdb)).drop (1 + H.hLen) = mdb := by
    rw [Nat.add_comm, List.drop_succ_cons, ← hmsdlen, List.drop_left]
  rw [e1, e2]
  have e3 : xorBytes msd (mgf1 H mdb H.hLen) = seed := by
    rw [hmsddef, hsMask]
    exact xorBytes_cancel seed _ (by rw [hseedlen, hsMasklen])
  rw [e3]
  have e4 : xorBytes mdb (mgf1 H seed (k - H.hLen - 1)) = db := by
    rw [hmdbdef, ← hdbMask]
    exact xorBytes_cancel db _ (by rw [hdblen, hdbMasklen])
  rw [e4]
  have e5 : db.drop H.hLen = List.replicate z 0 ++ 1 :: msg := by
    rw [hdbdef, List.append_assoc, ← hlhlen, List.drop_left]
  have e6 : db.take H.hLen = lh := by
    rw [hdbdef, List.append_assoc, ← hlhlen, List.take_left]
  rw [e5, e6, oaepScan_replicate]
  have e7 : (List.replicate z 0 ++ 1 :: msg).drop (z + 1) = msg := by
    rw [← List.drop_drop, List.drop_left' (List.length_replicate z 0),
      List.drop_succ_cons, List.drop_zero]
  simp only [List.headD_cons, e7]
  by_cases hcase : lh = H.hash label'
  · rw [if_pos ⟨by trivial, hcase⟩, if_pos (show H.hash label = H.hash label' from hcase)]
  · rw [if_neg (by simp [hcase]), if_neg (show ¬ H.hash label = H.hash label' from hcase)]

theorem oaepPad_length (H : HashFn) (hH : HashWF H) (k : ℕ) (msg label seed : GoStr)
    (hfit : msg.length + 2 * H.hLen + 2 ≤ k)
    (hseedlen : seed.length = H.hLen) :
    (oaepPad H k msg label seed).length = k := by
  obtain ⟨hpos, hdig⟩ := hH
  simp only [oaepPad, List.length_cons, List.length_append, xorBytes_length,
    mgf1_length H ⟨hpos, hdig⟩, List.length_replicate, (hdig label).1, hseedlen]
  omega

theorem oaepPad_mem_lt (H : HashFn) (hH : HashWF H) (k : ℕ) (msg label seed : GoStr)
    (hmsg : ∀ b ∈ msg, b < 256) (hseedb : ∀ b ∈ seed, b < 256) :
    ∀ b ∈ oaepPad H k msg label seed, b < 256 := by
  obtain ⟨hpos, hdig⟩ := hH
  have hdbb : ∀ b ∈ H.hash label ++ List.replicate (k - msg.length - 2 * H.hLen - 2) 0 ++ 1 :: msg,
      b < 256 := by
    intro b hb
    simp only [List.mem_append, List.mem_replicate, List.mem_cons] at hb
    rcases hb with (hb | ⟨-, rfl⟩) | (rfl | hb)
    · exact (hdig label).2 b hb
    · norm_num
    · norm_num
    · exact hmsg b hb
  intro b hb
  simp only [oaepPad, List.mem_cons, List.mem_append] at hb
  rcases hb with rfl | hb | hb
  · norm_num
  · exact xorBytes_mem_lt _ _ hseedb (mgf1_mem_lt H ⟨hpos, hdig⟩ _ _) b hb
  · exact xorBytes_mem_lt _ _ hdbb (mgf1_mem_lt H ⟨hpos, hdig⟩ _ _) b hb

theorem i2osp_os2ip_of_length (k : ℕ) (bs : GoStr) (hb : ∀ b ∈ bs, b < 256)
    (hlen : bs.length = k) : i2osp k (os2ip bs) = bs := by
  subst hlen
  exact i2osp_os2ip bs hb

theorem os2ip_oaepPad_lt (H : HashFn) (hH : HashWF H) (k : ℕ) (msg label seed : GoStr)
    (hfit : msg.length + 2 * H.hLen + 2 ≤ k)
    (hseedlen : seed.length = H.hLen)
    (hmsg : ∀ b ∈ msg, b < 256) (hseedb : ∀ b ∈ seed, b < 256) :
    os2ip (oaepPad H k msg label seed) < 256 ^ (k - 1) := by
  have hlen := oaepPad_length H hH k msg label seed hfit hseedlen
  have hmem := oaepPad_mem_lt H hH k msg label seed hmsg hseedb
  obtain ⟨t, ht⟩ : ∃ t, oaepPad H k msg label seed = 0 :: t := ⟨_, rfl⟩
  rw [ht] at hlen hmem ⊢
  rw [os2ip_cons_zero]
  have hbytes : ∀ b ∈ t, b < 256 := fun b hb => hmem b (List.mem_cons_of_mem _ hb)
  have hlt := os2ip_lt t hbytes
  have htl : t.length = k - 1 := by simp only [List.length_cons] at hlen; omega
  rw [htl] at hlt
  exact hlt

theorem decryptOAEP_encryptOAEP (H : HashFn) (K : RSAKey) (msg label seed ct : GoStr)
    (hH : HashWF H) (hK : KeyWF K)
    (hmsg : ∀ b ∈ msg, b < 256)
    (hseedlen : seed.length = H.hLen) (hseedb : ∀ b ∈ seed, b < 256)
    (hct : encryptOAEP H K msg label seed = .ok ct) :
    ∀ label', decryptOAEP H K ct label' =
      oaepUnpad H K.k label' (oaepPad H K.k msg label seed) := by
  intro label'
  by_cases hguard : (msg.length : ℤ) > (K.k : ℤ) - 2 * (H.hLen : ℤ) - 2
  · rw [encryptOAEP, if_pos hguard] at hct
    exact absurd hct (by simp)
  rw [encryptOAEP, if_neg hguard] at hct
  have hfit : msg.length + 2 * H.hLen + 2 ≤ K.k := by omega
  injection hct with hcteq
  subst hcteq
  have hn0 : 0 < K.n := by
    have h1 : (0:ℕ) < 256 ^ (K.k - 1) := pow_pos (by norm_num) _
    have h2 := hK.2.2.2.2.2.2.2.2.2.1
    omega
  have hpadlen := oaepPad_length H hH K.k msg label seed hfit hseedlen
  have hpadmem := oaepPad_mem_lt H hH K.k msg label seed hmsg hseedb
  have hpadlt := os2ip_oaepPad_lt H hH K.k msg label seed hfit hseedlen hmsg hseedb
  have hmlt : os2ip (oaepPad H K.k msg label seed) < K.n :=
    lt_of_lt_of_le hpadlt (hK.2.2.2.2.2.2.2.2.2.1)
  have hclt : powMod K.n (os2ip (oaepPad H K.k msg label seed)) K.e < K.n := powMod_lt _ _ _ hn0
  have hclt' : powMod K.n (os2ip (oaepPad H K.k msg label seed)) K.e < 256 ^ K.k :=
    lt_trans hclt hK.2.2.2.2.2.2.2.2.2.2
  rw [decryptOAEP, if_neg (by rw [i2osp_length]; omega)]
  simp only [os2ip_i2osp K.k _ hclt']
  rw [if_neg (by omega)]
  rw [rsa_roundtrip_nat K hK _ hmlt]
  rw [i2osp_os2ip_of_length K.k _ hpadmem hpadlen]

theorem toyHash_wf : HashWF toyHash := by
  refine ⟨by norm_num [toyHash], fun x => ⟨rfl, ?_⟩⟩
  intro b hb
  simp only [toyHash, List.mem_singleton] at hb
  subst hb
  exact Nat.mod_lt _ (by norm_num)

theorem toyKey_wf : KeyWF toyKey := by
  refine ⟨?_, ?_, ?_, ?_, ?_, ?_, ?_, ?_, ?_, ?_, ?_⟩
  · norm_num [toyKey]
  · norm_num [toyKey]
  · decide
  · decide
  · show 17 * 631632113 % 65536 = 1 % 65536
    norm_num
  · show 17 * 631632113 % 65538 = 1 % 65538
    norm_num
  · decide
  · decide
  · decide
  · norm_num [toyKey]
  · norm_num [toyKey]

/-- C2: for every non-empty secret within the key's OAEP payload bound and
every account/issuer pair, decrypting the encryption of the secret under
the label derived from that pair, with the same key and label, returns
exactly the original secret bytes. -/
theorem oaep_roundtrip_correct (H : HashFn) (K : RSAKey) (account issuer msg seed ct : GoStr)
    (hH : HashWF H) (hK : KeyWF K)
    (_hne : msg ≠ []) (hmsg : ∀ b ∈ msg, b < 256)
    (hfit : msg.length + 2 * H.hLen + 2 ≤ K.k)
    (hseedlen : seed.length = H.hLen) (hseedb : ∀ b ∈ seed, b < 256)
    (hct : encryptOAEP H K msg (cryptlabel account issuer) seed = .ok ct) :
    decryptOAEP H K ct (cryptlabel account issuer) = .ok msg := by
  rw [decryptOAEP_encryptOAEP H K msg (cryptlabel account issuer) seed ct hH hK hmsg
    hseedlen hseedb hct, oaepUnpad_oaepPad H hH K.k msg _ _ seed hfit hseedlen, if_pos rfl]

theorem oaep_roundtrip_correct_witness :
    encryptOAEP toyHash toyKey [42] (cryptlabel [97] [98]) [200] = .ok [0, 50, 189, 225, 158] ∧
    decryptOAEP toyHash toyKey [0, 50, 189, 225, 158] (cryptlabel [97] [98]) = .ok [42] :=
  ⟨by rfl, oaep_roundtrip_correct toyHash toyKey [97] [98] [42] [200] [0, 50, 189, 225, 158]
    toyHash_wf toyKey_wf (by decide) (by decide) (by decide) (by decide) (by decide) (by rfl)⟩

/-- C3: a ciphertext decrypts only under the label it was encrypted with:
if the two labels derived from two account/issuer pairs differ (and, the
padding hash being a parameter here, their digests differ — the spec's
collision-resistance assumption made explicit), decryption fails with the
decryption error. -/
theorem oaep_label_binding (H : HashFn) (K : RSAKey) (a1 i1 a2 i2 msg seed ct : GoStr)
    (hH : HashWF H) (hK : KeyWF K)
    (hmsg : ∀ b ∈ msg, b < 256)
    (hfit : msg.length + 2 * H.hLen + 2 ≤ K.k)
    (hseedlen : seed.length = H.hLen) (hseedb : ∀ b ∈ seed, b < 256)
    (_hlabels : cryptlabel a1 i1 ≠ cryptlabel a2 i2)
    (hhash : H.hash (cryptlabel a1 i1) ≠ H.hash (cryptlabel a2 i2))
    (hct : encryptOAEP H K msg (cryptlabel a1 i1) seed = .ok ct) :
    decryptOAEP H K ct (cryptlabel a2 i2) = .error .decryptionError := by
  rw [decryptOAEP_encryptOAEP H K msg (cryptlabel a1 i1) seed ct hH hK hmsg
    hseedlen hseedb hct, oaepUnpad_oaepPad H hH K.k msg _ _ seed hfit hseedlen, if_neg hhash]

theorem oaep_label_binding_witness :
    encryptOAEP toyHash toyKey [42] (cryptlabel [97] [98]) [200] = .ok [0, 50, 189, 225, 158] ∧
    cryptlabel [97] [98] ≠ cryptlabel [97] [99] ∧
    decryptOAEP toyHash toyKey [0, 50, 189, 225, 158] (cryptlabel [97] [99]) =
      .error .decryptionError :=
  ⟨by rfl, by decide, oaep_label_binding toyHash toyKey [97] [98] [97] [99] [42] [200]
    [0, 50, 189, 225, 158] toyHash_wf toyKey_wf (by decide) (by decide) (by decide) (by decide)
    (by decide) (by decide) (by rfl)⟩

/-- Every failure of `decryptOAEP` carries the single sentinel error. -/
theorem decryptOAEP_error_eq (H : HashFn) (K : RSAKey) (ct lbl : GoStr) (e : RSAError)
    (herr : decryptOAEP H K ct lbl = .error e) : e = .decryptionError := by
  simp only [decryptOAEP, oaepUnpad] at herr
  split at herr
  · exact (Except.error.inj herr).symm
  · split at herr
    · exact (Except.error.inj herr).symm
    · split at herr
      · exact (Except.error.inj herr).symm
      · split at herr
        · exact absurd herr (by simp)
        · exact (Except.error.inj herr).symm

/-- C5: decryption failures are indistinguishable: whenever two decryption
calls fail — for whatever reason (malformed ciphertext, wrong key, wrong
label) — the externally observable errors are identical. -/
theorem decrypt_failures_indistinguishable (H1 : HashFn) (K1 : RSAKey) (c1 l1 : GoStr)
    (H2 : HashFn) (K2 : RSAKey) (c2 l2 : GoStr) (e1 e2 : RSAError)
    (h1 : decryptOAEP H1 K1 c1 l1 = .error e1) (h2 : decryptOAEP H2 K2 c2 l2 = .error e2) :
    e1 = e2 := by
  rw [decryptOAEP_error_eq H1 K1 c1 l1 e1 h1, decryptOAEP_error_eq H2 K2 c2 l2 e2 h2]

theorem decrypt_failures_indistinguishable_witness :
    decryptOAEP toyHash toyKey [0, 1, 2, 3, 4, 5] [7] = .error .decryptionError ∧
    decryptOAEP toyHash toyKey [0, 50, 189, 225, 158] (cryptlabel [97] [99]) =
      .error .decryptionError ∧
    (RSAError.decryptionError : RSAError) = RSAError.decryptionError :=
  ⟨by rfl, by rfl, decrypt_failures_indistinguishable toyHash toyKey [0, 1, 2, 3, 4, 5] [7]
    toyHash toyKey [0, 50, 189, 225, 158] (cryptlabel [97] [99]) .decryptionError .decryptionError
    (by rfl) (by rfl)⟩

/-- C4: the derived label is the bytes of `account` concatenated with the
bytes of `issuer`, with no separator; hence `("ab","c")` and `("a","bc")`
derive the identical label. -/
theorem cryptlabel_concat_no_separator :
    (∀ account issuer : GoStr, cryptlabel account issuer = account ++ issuer) ∧
    cryptlabel [97, 98] [99] = cryptlabel [97] [98, 99] :=
  ⟨fun _ _ => rfl, by decide⟩

/-- C8: for every (nonnegative, as produced by `time.Now().Unix()`)
timestamp, the displayed remaining validity is `30 - now % 30`, lies in
`1..30`, decreases by one each second within a 30-second step, and wraps
back to 30 at the step boundary. -/
theorem secondsRemaining_spec (now : ℤ) (h : 0 ≤ now) :
    secondsRemaining now = 30 - Int.tmod now 30 ∧
    1 ≤ secondsRemaining now ∧ secondsRemaining now ≤ 30 ∧
    (Int.tmod now 30 < 29 → secondsRemaining (now + 1) = secondsRemaining now - 1) ∧
    (Int.tmod now 30 = 29 → secondsRemaining (now + 1) = 30) := by
  have e1 : Int.tmod now 30 = now % 30 := Int.tmod_eq_emod h (by norm_num)
  have e2 : Int.tmod (now + 1) 30 = (now + 1) % 30 := Int.tmod_eq_emod (by omega) (by norm_num)
  unfold secondsRemaining
  rw [e1, e2]
  have h1 := Int.emod_nonneg now (show (30:ℤ) ≠ 0 by norm_num)
  have h2 := Int.emod_lt_of_pos now (show (0:ℤ) < 30 by norm_num)
  refine ⟨rfl, by omega, by omega, fun hlt => by omega, fun heq => by omega⟩

theorem secondsRemaining_spec_witness :
    0 ≤ (59:ℤ) ∧
    (secondsRemaining 59 = 30 - Int.tmod 59 30 ∧
      1 ≤ secondsRemaining 59 ∧ secondsRemaining 59 ≤ 30 ∧
      (Int.tmod 59 30 < 29 → secondsRemaining (59 + 1) = secondsRemaining 59 - 1) ∧
      (Int.tmod 59 30 = 29 → secondsRemaining (59 + 1) = 30)) :=
  ⟨by decide, secondsRemaining_spec 59 (by decide)⟩

/-- C9 counterexample: the source normalization removes only space bytes
(0x20), not all whitespace: on the plaintext `"a\tb"` (bytes 97 9 98) the
tab survives, so the secret handed to the generator differs from the
claimed all-whitespace-stripped upper-cased string. -/
theorem normalizeKey_counterexample :
    normalizeKey [97, 9, 98] = [65, 9, 66] ∧ specNormalize [97, 9, 98] = [65, 66] ∧
    normalizeKey [97, 9, 98] ≠ specNormalize [97, 9, 98] := by decide

/-- C9 amended: the secret handed to the generator is the decrypted string
with every space byte (0x20) removed and letters upper-cased (equivalently
upper-cased then space-stripped), so two plaintexts that differ only in
letter case and embedded spaces generate the same code. -/
theorem normalizeKey_amended :
    (∀ s : GoStr, normalizeKey s = (s.map goUpperByte).filter fun b => decide (b ≠ 32)) ∧
    (∀ s1 s2 : GoStr,
      (s1.filter fun b => decide (b ≠ 32)).map goUpperByte =
        (s2.filter fun b => decide (b ≠ 32)).map goUpperByte →
      normalizeKey s1 = normalizeKey s2) := by
  have hpred : ∀ b : ℕ, (decide (goUpperByte b ≠ 32)) = (decide (b ≠ 32)) := by
    intro b
    rw [decide_eq_decide]
    unfold goUpperByte
    split <;> omega
  constructor
  · intro s
    rw [normalizeKey, List.filter_map]
    congr 1
    apply List.filter_congr
    intro b _
    exact (hpred b).symm
  · intro s1 s2 hcase
    rw [normalizeKey, normalizeKey, hcase]

theorem normalizeKey_amended_witness :
    (([97, 32, 98] : GoStr).filter fun b => decide (b ≠ 32)).map goUpperByte =
      (([65, 98] : GoStr).filter fun b => decide (b ≠ 32)).map goUpperByte ∧
    normalizeKey [97, 32, 98] = normalizeKey [65, 98] :=
  ⟨by decide, normalizeKey_amended.2 [97, 32, 98] [65, 98] (by decide)⟩

theorem replaceInto_uniqueKeys (db : List OtpRow) (r : OtpRow) (h : UniqueKeys db) :
    UniqueKeys (replaceInto db r) := by
  unfold UniqueKeys replaceInto
  rw [List.pairwise_append]
  refine ⟨h.filter _, List.pairwise_singleton _ _, ?_⟩
  intro x hx y hy
  rw [List.mem_filter] at hx
  rw [List.mem_singleton] at hy
  subst hy
  exact fun hk => (of_decide_eq_true hx.2) hk

theorem add_fst_uniqueKeys (enc : GoStr → GoStr → Except RSAError GoStr) (db : List OtpRow)
    (s i a : GoStr) (h : UniqueKeys db) : UniqueKeys (add enc db s i a).1 := by
  by_cases hs : s = []
  · simpa [add, hs] using h
  by_cases hi : i = []
  · simpa [add, hs, hi] using h
  by_cases ha : a = []
  · simpa [add, hs, hi, ha] using h
  cases henc : enc s (cryptlabel a i) with
  | error e => simpa [add, hs, hi, ha, henc] using h
  | ok c =>
    simp only [add, if_neg hs, if_neg hi, if_neg ha, henc]
    exact replaceInto_uniqueKeys db _ h

theorem applyAdds_uniqueKeys (enc : GoStr → GoStr → Except RSAError GoStr)
    (ops : List (GoStr × GoStr × GoStr)) :
    ∀ db, UniqueKeys db → UniqueKeys (applyAdds enc db ops) := by
  induction ops with
  | nil => intro db h; exact h
  | cons op ops ih =>
    intro db h
    obtain ⟨s, i, a⟩ := op
    exact ih _ (add_fst_uniqueKeys enc db s i a h)

theorem replaceInto_filter_key (db : List OtpRow) (acc iss c : GoStr) :
    (replaceInto db ⟨acc, iss, c⟩).filter
      (fun r => decide (r.account = acc ∧ r.issuer = iss)) = [⟨acc, iss, c⟩] := by
  unfold replaceInto
  rw [List.filter_append]
  have h1 : (db.filter fun r0 => decide ¬(r0.account = acc ∧ r0.issuer = iss)).filter
      (fun r => decide (r.account = acc ∧ r.issuer = iss)) = [] := by
    rw [List.filter_eq_nil_iff]
    intro x hx
    rw [List.mem_filter] at hx
    intro hc
    exact (of_decide_eq_true hx.2) (of_decide_eq_true hc)
  rw [h1]
  simp

/-- C6: rows are upserted by the unique `(account, issuer)` key: any
sequence of `add`s starting from the freshly initialized (empty) table
leaves at most one row per pair, and adding twice for the same pair leaves
exactly the one row carrying the second ciphertext. -/
theorem add_upsert_invariant (enc : GoStr → GoStr → Except RSAError GoStr)
    (ops : List (GoStr × GoStr × GoStr)) (db : List OtpRow)
    (s1 s2 iss acc c1 c2 : GoStr)
    (h1 : enc s1 (cryptlabel acc iss) = .ok c1) (h2 : enc s2 (cryptlabel acc iss) = .ok c2)
    (hs1 : s1 ≠ []) (hs2 : s2 ≠ []) (hiss : iss ≠ []) (hacc : acc ≠ []) :
    UniqueKeys (applyAdds enc [] ops) ∧
    (applyAdds enc db [(s1, iss, acc), (s2, iss, acc)]).filter
      (fun r => decide (r.account = acc ∧ r.issuer = iss)) = [⟨acc, iss, c2⟩] := by
  constructor
  · exact applyAdds_uniqueKeys enc ops [] List.Pairwise.nil
  · have e1 : add enc db s1 iss acc = (replaceInto db ⟨acc, iss, c1⟩, none) := by
      simp only [add, if_neg hs1, if_neg hiss, if_neg hacc, h1]
    have e2 : add enc (replaceInto db ⟨acc, iss, c1⟩) s2 iss acc =
        (replaceInto (replaceInto db ⟨acc, iss, c1⟩) ⟨acc, iss, c2⟩, none) := by
      simp only [add, if_neg hs2, if_neg hiss, if_neg hacc, h2]
    simp only [applyAdds, e1, e2]
    exact replaceInto_filter_key _ acc iss c2

theorem add_upsert_invariant_witness :
    (fun s _ => (Except.ok s : Except RSAError GoStr)) [42] (cryptlabel [97] [105]) = .ok [42] ∧
    (applyAdds (fun s _ => Except.ok s) []
        [([42], [105], [97]), ([43], [105], [97])]).filter
      (fun r => decide (r.account = [97] ∧ r.issuer = [105])) = [⟨[97], [105], [43]⟩] :=
  ⟨by rfl, (add_upsert_invariant (fun s _ => Except.ok s) [([1], [2], [3])] [] [42] [43]
    [105] [97] [42] [43] (by rfl) (by rfl) (by decide) (by decide) (by decide) (by decide)).2⟩

/-- C7: `add` fails with a validation error exactly when one of secret,
issuer, account is empty (checked in that order); on a validation failure
no encryption happens (the result does not depend on the encryption
function) and the table is unchanged; with all three non-empty it encrypts
and upserts, propagating any encryption error. -/
theorem add_validation_spec (enc : GoStr → GoStr → Except RSAError GoStr) (db : List OtpRow)
    (s i a : GoStr) :
    ((∃ e, (add enc db s i a).2 = some e ∧ e.isValidation = true) ↔
      (s = [] ∨ i = [] ∨ a = [])) ∧
    ((s = [] ∨ i = [] ∨ a = []) →
      (∀ enc2, add enc2 db s i a = add enc db s i a) ∧ (add enc db s i a).1 = db) ∧
    (s ≠ [] → i ≠ [] → a ≠ [] →
      add enc db s i a =
        match enc s (cryptlabel a i) with
        | .error e2 => (db, some (.encryptFailed e2))
        | .ok c => (replaceInto db ⟨a, i, c⟩, none)) := by
  refine ⟨⟨?_, ?_⟩, ?_, ?_⟩
  · rintro ⟨e, he, hv⟩
    by_contra hne
    push_neg at hne
    obtain ⟨hs, hi, ha⟩ := hne
    simp only [add, if_neg hs, if_neg hi, if_neg ha] at he
    cases henc : enc s (cryptlabel a i) with
    | ok c => rw [henc] at he; simp at he
    | error e2 =>
      rw [henc] at he
      simp only [Option.some.injEq] at he
      subst he
      simp [VaultError.isValidation] at hv
  · intro h
    by_cases hs : s = []
    · exact ⟨.secretMissing, by simp [add, hs], rfl⟩
    by_cases hi : i = []
    · exact ⟨.issuerMissing, by simp [add, hs, hi], rfl⟩
    have ha : a = [] := by tauto
    exact ⟨.accountMissing, by simp [add, hs, hi, ha], rfl⟩
  · intro h
    constructor
    · intro enc2
      by_cases hs : s = []
      · simp [add, hs]
      by_cases hi : i = []
      · simp [add, hs, hi]
      have ha : a = [] := by tauto
      simp [add, hs, hi, ha]
    · by_cases hs : s = []
      · simp [add, hs]
      by_cases hi : i = []
      · simp [add, hs, hi]
      have ha : a = [] := by tauto
      simp [add, hs, hi, ha]
  · intro hs hi ha
    simp only [add, if_neg hs, if_neg hi, if_neg ha]

theorem add_validation_spec_witness :
    (∃ e, (add (fun s _ => Except.ok s) [] [] [105] [97]).2 = some e ∧
      e.isValidation = true) ∧
    add (fun s _ => Except.ok s) [] [42] [105] [97] =
      (replaceInto [] ⟨[97], [105], [42]⟩, none) := by
  refine ⟨(add_validation_spec (fun s _ => Except.ok s) [] [] [105] [97]).1.mpr
    (Or.inl rfl), ?_⟩
  have h := (add_validation_spec (fun s _ => Except.ok s) [] [42] [105] [97]).2.2
    (by decide) (by decide) (by decide)
  exact h

/-- C1 (amended): in the `load` loop a decryption or code-generation
failure on a record aborts the listing at that record: rows of earlier
records are still emitted (the deferred tabwriter flush writes them), the
record's error is returned as the listing's error, and neither the failing
record nor any later record produces a row. -/
theorem loadRows_abort_spec (H : HashFn) (K : RSAKey) (gen : GoStr → Except GoStr GoStr)
    (now : ℤ) (r : OtpRow) (rs : List OtpRow) :
    (∀ e, decryptOAEP H K r.password (cryptlabel r.account r.issuer) = .error e →
      loadRows H K gen now (r :: rs) = ([], some (.decryptFailed e))) ∧
    (∀ dec m, decryptOAEP H K r.password (cryptlabel r.account r.issuer) = .ok dec →
      gen (normalizeKey dec) = .error m →
      loadRows H K gen now (r :: rs) = ([], some (.codegenFailed m))) ∧
    (∀ dec token, decryptOAEP H K r.password (cryptlabel r.account r.issuer) = .ok dec →
      gen (normalizeKey dec) = .ok token →
      loadRows H K gen now (r :: rs) =
        (⟨r.account, r.issuer, secondsRemaining now, token⟩ :: (loadRows H K gen now rs).1,
          (loadRows H K gen now rs).2)) := by
  refine ⟨?_, ?_, ?_⟩ <;> intros <;> simp only [loadRows, *]

theorem loadRows_abort_spec_witness :
    decryptOAEP toyHash toyKey (OtpRow.password ⟨[97], [98], [0, 1, 2, 3, 4, 5]⟩)
      (cryptlabel (OtpRow.account ⟨[97], [98], [0, 1, 2, 3, 4, 5]⟩)
        (OtpRow.issuer ⟨[97], [98], [0, 1, 2, 3, 4, 5]⟩)) = .error .decryptionError ∧
    loadRows toyHash toyKey (fun s => Except.ok s) 0
      [⟨[97], [98], [0, 1, 2, 3, 4, 5]⟩, ⟨[97], [98], [0, 50, 189, 225, 158]⟩] =
      ([], some (.decryptFailed .decryptionError)) :=
  ⟨by rfl, (loadRows_abort_spec toyHash toyKey (fun s => Except.ok s) 0
    ⟨[97], [98], [0, 1, 2, 3, 4, 5]⟩ [⟨[97], [98], [0, 50, 189, 225, 158]⟩]).1
    .decryptionError (by rfl)⟩

/-- C1 counterexample: with a bad first record the `load` loop does not
continue: the second (perfectly decryptable) record produces no row and the
listing ends with the error — refuting that "the iteration continues past
the bad record [and] every other record's row is still produced". -/
theorem loadRows_counterexample :
    loadRows toyHash toyKey (fun s => Except.ok s) 0
      [⟨[97], [98], [0, 1, 2, 3, 4, 5]⟩, ⟨[97], [98], [0, 50, 189, 225, 158]⟩] =
      ([], some (.decryptFailed .decryptionError)) ∧
    loadRows toyHash toyKey (fun s => Except.ok s) 0 [⟨[97], [98], [0, 50, 189, 225, 158]⟩] =
      ([⟨[97], [98], 30, [42]⟩], none) := by
  constructor <;> rfl

theorem nodup_head?_eq_getLast?_iff (l : List ℕ) (h : l.Nodup) :
    l.head? = l.getLast? ↔ l.length ≤ 1 := by
  match l with
  | [] => simp
  | [a] => simp
  | a :: b :: t =>
    simp only [List.head?_cons, List.length_cons]
    constructor
    · intro heq
      exfalso
      rw [List.getLast?_cons_cons] at heq
      have hne : b :: t ≠ [] := by simp
      have hx : (b :: t).getLast? = some ((b :: t).getLast hne) := List.getLast?_eq_getLast _ hne
      rw [hx] at heq
      have ha : a = (b :: t).getLast hne := Option.some.inj heq
      have hmem : (b :: t).getLast hne ∈ b :: t := List.getLast_mem hne
      rw [← ha] at hmem
      exact (List.nodup_cons.mp h).1 hmem
    · intro hlen
      omega

theorem foldr_select_id (p : GoStr → Bool) (lines : List GoStr) :
    lines.foldr (fun line out => if p line then line :: out else out) [] = lines.filter p := by
  induction lines with
  | nil => rfl
  | cons x xs ih =>
    by_cases hx : p x
    · simp [List.filter_cons, hx, ih]
    · simp [List.filter_cons, hx, ih]

theorem foldr_select_map (p : GoStr → Bool) (f : GoStr → GoStr) (lines : List GoStr) :
    lines.foldr (fun line out => if p line then f line :: out else out) [] =
      (lines.filter p).map f := by
  induction lines with
  | nil => rfl
  | cons x xs ih =>
    by_cases hx : p x
    · simp [List.filter_cons, hx, ih]
    · simp [List.filter_cons, hx, ih]

/-- C10: for `get` with a non-empty filter, a line of the listing output is
selected exactly when it contains the filter; when the filter occurs
exactly once in the whole output, only the last whitespace-separated field
of each selected line is printed; when it occurs at two or more positions
anywhere in the output, every selected line is printed in full. -/
theorem getFiltered_spec (buf flt : GoStr) (_hflt : flt ≠ []) :
    ((occPositions buf flt).length = 1 →
      getFiltered buf flt =
        ((splitLinesScanner buf).filter fun l => containsStr l flt).map
          fun l => (goFields l).getLastD []) ∧
    (2 ≤ (occPositions buf flt).length →
      getFiltered buf flt = (splitLinesScanner buf).filter fun l => containsStr l flt) := by
  have hnd : (occPositions buf flt).Nodup := (List.nodup_range _).filter _
  constructor
  · intro h1
    obtain ⟨x, hx⟩ := List.length_eq_one.mp h1
    have heq : strIndex? buf flt = strLastIndex? buf flt := by
      rw [strIndex?, strLastIndex?, hx]
      rfl
    have hb : (strIndex? buf flt ≠ strLastIndex? buf flt) = False := by simp [heq]
    simp only [getFiltered, hb, if_false]
    exact foldr_select_map _ _ _
  · intro h2
    have hne : strIndex? buf flt ≠ strLastIndex? buf flt := by
      rw [strIndex?, strLastIndex?, Ne, nodup_head?_eq_getLast?_iff _ hnd]
      omega
    have hb : (strIndex? buf flt ≠ strLastIndex? buf flt) = True := eq_true hne
    simp only [getFiltered, hb, if_true]
    exact foldr_select_id _ _

theorem getFiltered_spec_witness :
    ([99] : GoStr) ≠ [] ∧
    (occPositions [97, 98, 32, 99, 100, 10, 101, 102, 32, 103, 104, 10] [99]).length = 1 ∧
    getFiltered [97, 98, 32, 99, 100, 10, 101, 102, 32, 103, 104, 10] [99] = [[99, 100]] :=
  ⟨by decide, by decide,
    ((getFiltered_spec [97, 98, 32, 99, 100, 10, 101, 102, 32, 103, 104, 10] [99]
      (by decide)).1 (by decide)).trans (by decide)⟩
